import Mathlib

/-
Shallow embedding of src/infernet/src/cvm/debug/graph_runtime_debug.cc
(class GraphRuntimeDebug).

Modelling conventions:
* A tensor (NDArray / DLTensor) is a device descriptor plus its raw bytes.
* An operator closure `op_execs_[i]` is `Option (List Tensor → List Tensor)`:
  `none` is the empty std::function, `some f` transforms the whole storage
  vector `data_entry_` (the closure writes its outputs into storage).
* Wall-clock time is a rational number of seconds carried in the state.
  Invoking closure `i` advances time by `opCost i`; a device sync on device
  `(dt, di)` advances it by `syncCost dt di`.  C++ doubles are modelled as
  exact rationals.
* Every observable action is recorded in an event trace: closure
  invocations, device syncs (CVMSynchronize) and clock reads
  (high_resolution_clock::now()).
* CHECK / LOG(FATAL) aborts are modelled as `Except.error` values.
* The do-while loop of RunIndividual is modelled with explicit fuel;
  `none` models a non-terminating loop.
-/

namespace CvmDebug

/-- A tensor handle: device descriptor `(deviceType, deviceId)` (the
`CVMContext` of the NDArray) plus the raw buffer bytes. -/
structure Tensor where
  deviceType : Nat
  deviceId : Nat
  bytes : List Nat
deriving DecidableEq

/-- One graph node: its name (node metadata) and its operator closure
slot `op_execs_[i]` (`none` = empty std::function). -/
structure Node where
  name : String
  op : Option (List Tensor → List Tensor)

/-- The debug runtime's view of the base executor: the ordered node /
closure list, the initial storage `data_entry_`, the `entry_id` mapping,
and the cost model for closures and device syncs. -/
structure Graph where
  nodes : List Node
  entries0 : List Tensor
  /-- Modelled from the spec: `entry_id(node_index, output_slot)` is the
  base executor's storage-entry mapping (`graph_runtime.h` is not part of
  the sources); the spec constrains it only to be a mapping from
  `(node_index, output_slot)` into the storage table. -/
  entryId : Nat → Nat → Nat
  /-- Time (seconds) one invocation of closure `i` takes. -/
  opCost : Nat → ℚ
  /-- Time (seconds) a `CVMSynchronize(dt, di, nullptr)` call takes. -/
  syncCost : Nat → Nat → ℚ

/-- Mutable executor state: the storage table `data_entry_` plus the
current wall-clock reading. -/
structure State where
  entries : List Tensor
  time : ℚ
deriving DecidableEq

/-- Observable events of a debug call. -/
inductive Event where
  | invoke (i : Nat)
  | sync (devType devId : Nat)
  | clockRead
deriving DecidableEq

/-- Number of nodes; `op_execs_.size()` (= number of nodes). -/
def Graph.numNodes (g : Graph) : Nat := g.nodes.length

/-- The closure slot `op_execs_[i]`. -/
def Graph.opExec (g : Graph) (i : Nat) : Option (List Tensor → List Tensor) :=
  (g.nodes.get? i).bind Node.op

/-- Initial state: the staged storage entries at time 0. -/
def Graph.initState (g : Graph) : State := ⟨g.entries0, 0⟩

/-- The device context `data_entry_[entry_id(i, 0)]->ctx` read before a
timed region.  An out-of-range storage access is undefined behaviour in
the C++ source; the model returns device `(0, 0)` there (none of the
verified graphs hit that branch). -/
def ctxAt (g : Graph) (entries : List Tensor) (i : Nat) : Nat × Nat :=
  match entries.get? (g.entryId i 0) with
  | some t => (t.deviceType, t.deviceId)
  | none => (0, 0)

/-- Nonnegative cost model: a monotonic clock never runs backwards, so
closure invocations and device syncs consume nonnegative time. -/
def Graph.NonnegCosts (g : Graph) : Prop :=
  (∀ i, 0 ≤ g.opCost i) ∧ ∀ a b, 0 ≤ g.syncCost a b

/-- DebugRun (graph_runtime_debug.cc lines 27-39): CHECK the index, read
the context of `data_entry_[entry_id(index, 0)]`, read `tbegin`, invoke
the closure if non-empty, synchronize that device, read `tend`, return
`tend - tbegin` in seconds.  Result: (return value or fatal CHECK, final
state, event trace). -/
def debugRun (g : Graph) (index : Nat) (s : State) :
    Except String ℚ × State × List Event :=
  if index < g.numNodes then
    let ctx := ctxAt g s.entries index
    let t0 := s.time
    match g.opExec index with
    | some f =>
      let s1 : State := ⟨f s.entries, s.time + g.opCost index⟩
      let s2 : State := ⟨s1.entries, s1.time + g.syncCost ctx.1 ctx.2⟩
      (Except.ok (s2.time - t0), s2,
        [Event.clockRead, Event.invoke index, Event.sync ctx.1 ctx.2, Event.clockRead])
    | none =>
      let s2 : State := ⟨s.entries, s.time + g.syncCost ctx.1 ctx.2⟩
      (Except.ok (s2.time - t0), s2,
        [Event.clockRead, Event.sync ctx.1 ctx.2, Event.clockRead])
  else (Except.error "Check failed: index < op_execs_.size()", s, [])

/-- Helper for GetNodeIndex (lines 122-130): the linear scan
`for (nid = k; ...)` over the remaining node list. -/
def getNodeIndexAux (nm : String) : Nat → List Node → Except String Nat
  | _, [] => Except.error ("cannot find " ++ nm ++ " among nodex")
  | k, nd :: rest => if nd.name = nm then Except.ok k else getNodeIndexAux nm (k + 1) rest

/-- GetNodeIndex (lines 122-130): linear scan over node names; the first
match wins; no match is LOG(FATAL) naming the missing symbol. -/
def getNodeIndex (g : Graph) (nm : String) : Except String Nat :=
  getNodeIndexAux nm 0 g.nodes

/-- The plain execution loop `for i in idxs: if op_execs_[i] then
op_execs_[i]()` — used by DebugGetNodeOutput's partial run (lines
146-149, the loop with break is exactly the run over indices `0..index`)
and, over all indices, by the base executor's `Run()`.  Produces the
final state and the invocation trace. -/
def runSeq (g : Graph) : List Nat → State → State × List Event
  | [], s => (s, [])
  | i :: rest, s =>
    match g.opExec i with
    | none => runSeq g rest s
    | some f =>
      let s1 : State := ⟨f s.entries, s.time + g.opCost i⟩
      let r := runSeq g rest s1
      (r.1, Event.invoke i :: r.2)

/-- Modelled from the spec: `GraphRuntime::Run()` (the base executor's
full forward pass, not part of the sources) executes the ordered list of
operator closures once, skipping empty slots. -/
def warmUpRun (g : Graph) (s : State) : State × List Event :=
  runSeq g (List.range g.numNodes) s

/-- DebugGetNodeOutput (lines 142-152): CHECK index < N, set
`eid = index`, run closures `0..index` (the source loop breaks right
after running slot `index`), then copy `data_entry_[eid]` to the
destination buffer.  Result: (copied bytes or fatal CHECK, final state,
event trace). -/
def debugGetNodeOutput (g : Graph) (index : Nat) (s : State) :
    Except String (List Nat) × State × List Event :=
  if index < g.numNodes then
    let r := runSeq g (List.range (index + 1)) s
    match r.1.entries.get? index with
    | some t => (Except.ok t.bytes, r.1, r.2)
    | none => (Except.error "data_entry_ access out of range", r.1, r.2)
  else (Except.error "Check failed: index < op_execs_.size()", s, [])

/-- GetOutputByLayer (lines 105-107): return `data_entry_[entry_id(index,
eid)]` with no bounds check of its own; a total embedding therefore
returns an Option, `none` being the out-of-range lookup. -/
def getOutputByLayer (g : Graph) (s : State) (index eid : Nat) : Option Tensor :=
  s.entries.get? (g.entryId index eid)

/-- `static_cast<int>` applied to a C++ double: truncation toward zero,
modelled on exact rationals. -/
def castToInt (q : ℚ) : Int := if 0 ≤ q then ⌊q⌋ else ⌈q⌉

/-- The iteration-count adjustment of RunIndividual (lines 64-68):
`number = static_cast<int>(std::max(min_repeat_ms / (duration_ms /
number) + 1, number * 1.618))`. -/
def adjustNumber (minRepeatMs durMs : ℚ) (number : Int) : Int :=
  castToInt (max (minRepeatMs / (durMs / (number : ℚ)) + 1)
                 ((number : ℚ) * (1618 / 1000)))

/-- Result of the timed inner op loop: final state, per-op accumulator
`time_per_op`, and the event trace. -/
structure OpsRes where
  state : State
  accum : List ℚ
  events : List Event
deriving DecidableEq

/-- The timed per-op loop body of RunIndividual (lines 71-82): for each
listed index whose closure is non-empty, read the device context, read
`op_tbegin`, invoke, synchronize, read `op_tend`, and add the elapsed
milliseconds to accumulator slot `index`. -/
def runOpsTimed (g : Graph) : List Nat → State → List ℚ → OpsRes
  | [], s, tpo => ⟨s, tpo, []⟩
  | i :: rest, s, tpo =>
    match g.opExec i with
    | none => runOpsTimed g rest s tpo
    | some f =>
      let ctx := ctxAt g s.entries i
      let s1 : State := ⟨f s.entries, s.time + g.opCost i⟩
      let s2 : State := ⟨s1.entries, s1.time + g.syncCost ctx.1 ctx.2⟩
      let tpo1 := tpo.set i (tpo.getD i 0 + (s2.time - s.time) * 1000)
      let r := runOpsTimed g rest s2 tpo1
      ⟨r.state, r.accum,
        Event.clockRead :: Event.invoke i :: Event.sync ctx.1 ctx.2 ::
          Event.clockRead :: r.events⟩

/-- The `for (k = 0; k < number; k++)` loop (line 70): `k` full passes of
the timed per-op loop. -/
def runNTimes (g : Graph) : Nat → State → List ℚ → OpsRes
  | 0, s, tpo => ⟨s, tpo, []⟩
  | k + 1, s, tpo =>
    let r1 := runOpsTimed g (List.range g.numNodes) s tpo
    let r2 := runNTimes g k r1.state r1.accum
    ⟨r2.state, r2.accum, r1.events ++ r2.events⟩

/-- Result of one attempt of the do-while body: final state, accumulator,
the measured `duration_ms`, and the trace. -/
structure AttemptRes where
  state : State
  accum : List ℚ
  durationMs : ℚ
  events : List Event
deriving DecidableEq

/-- One iteration of the do-while body of RunIndividual (lines 63-86)
minus the number adjustment: `std::fill` the accumulator with zeros
(discarding whatever it held), read `tbegin`, run the timed loop `number`
times, read `tend`, and compute `duration_ms`. -/
def attempt (g : Graph) (number : Int) (s : State) (tpo : List ℚ) : AttemptRes :=
  let tpo0 := (tpo.map fun _ => (0 : ℚ))
  let t0 := s.time
  let r := runNTimes g number.toNat s tpo0
  ⟨r.state, r.accum, (r.state.time - t0) * 1000,
    Event.clockRead :: r.events ++ [Event.clockRead]⟩

/-- The `number` and `duration_ms` of one attempt, as observed by the
retry policy. -/
structure AttemptInfo where
  number : Int
  durationMs : ℚ
deriving DecidableEq

/-- Result of the whole do-while loop of one repeat. -/
structure LoopRes where
  number : Int
  state : State
  accum : List ℚ
  events : List Event
  infos : List AttemptInfo
deriving DecidableEq

/-- The do-while loop of RunIndividual (lines 62-87) with explicit fuel:
if the previous `duration_ms` is positive, adjust `number`; run one
attempt; retry while `duration_ms < min_repeat_ms`.  `none` models a loop
that never terminates. -/
def doWhile (g : Graph) (minRepeatMs : ℚ) :
    Nat → Int → ℚ → State → List ℚ → Option LoopRes
  | 0, _, _, _, _ => none
  | fuel + 1, number, durMs, s, tpo =>
    let number1 := if 0 < durMs then adjustNumber minRepeatMs durMs number else number
    let a := attempt g number1 s tpo
    if a.durationMs < minRepeatMs then
      match doWhile g minRepeatMs fuel number1 a.durationMs a.state a.accum with
      | none => none
      | some r =>
        some ⟨r.number, r.state, r.accum, a.events ++ r.events,
              ⟨number1, a.durationMs⟩ :: r.infos⟩
    else some ⟨number1, a.state, a.accum, a.events, [⟨number1, a.durationMs⟩]⟩

/-- The in-place division of the reporting loop (lines 91-96):
`time_per_op[index] /= number` at every index with a non-empty closure. -/
def dividedAccum (g : Graph) (tpo : List ℚ) (number : Int) : List ℚ :=
  (List.range g.numNodes).foldl
    (fun acc i =>
      if (g.opExec i).isSome then acc.set i (acc.getD i 0 / (number : ℚ)) else acc)
    tpo

/-- The per-repeat report: one `ms/iter` value per operator-bearing node,
in ascending node order (the LOG(INFO) lines of the reporting loop). -/
def mkReport (g : Graph) (tpo : List ℚ) (number : Int) : List ℚ :=
  ((List.range g.numNodes).filter fun i => (g.opExec i).isSome).map
    fun i => (dividedAccum g tpo number).getD i 0

/-- Result of the outer repeat loop. -/
structure RepRes where
  number : Int
  state : State
  accum : List ℚ
  events : List Event
  infoss : List (List AttemptInfo)
  reports : List (List ℚ)
deriving DecidableEq

/-- The outer `for (i = 0; i < repeat; ++i)` loop of RunIndividual (lines
58-97): each repeat starts its do-while with `duration_ms = 0` (so the
first attempt uses the incoming `number` unadjusted), then divides the
accumulator for the report. -/
def repeatLoop (g : Graph) (fuel : Nat) (minRepeatMs : ℚ) :
    Nat → Int → State → List ℚ → Option RepRes
  | 0, number, s, tpo => some ⟨number, s, tpo, [], [], []⟩
  | k + 1, number, s, tpo =>
    match doWhile g minRepeatMs fuel number 0 s tpo with
    | none => none
    | some r1 =>
      match repeatLoop g fuel minRepeatMs k r1.number r1.state
              (dividedAccum g r1.accum r1.number) with
      | none => none
      | some r2 =>
        some ⟨r2.number, r2.state, r2.accum, r1.events ++ r2.events,
              r1.infos :: r2.infoss, mkReport g r1.accum r1.number :: r2.reports⟩

/-- Result of a full RunIndividual call. -/
structure RunRes where
  state : State
  events : List Event
  infoss : List (List AttemptInfo)
  reports : List (List ℚ)
deriving DecidableEq

/-- RunIndividual (lines 53-98): warm-up full run, allocate the zeroed
accumulator `time_per_op(op_execs_.size(), 0)`, then the repeat loop. -/
def runIndividual (g : Graph) (fuel : Nat) (number rep minRepeatMs : Int)
    (s : State) : Option RunRes :=
  let w := warmUpRun g s
  let tpo := List.replicate g.numNodes (0 : ℚ)
  match repeatLoop g fuel (minRepeatMs : ℚ) rep.toNat number w.1 tpo with
  | none => none
  | some r => some ⟨r.state, w.2 ++ r.events, r.infoss, r.reports⟩

/-- The attempts observed by a RunIndividual call, one inner list per
repeat (projection used by concrete evaluations). -/
def runIndividualInfos (g : Graph) (fuel : Nat) (number rep minRepeatMs : Int)
    (s : State) : Option (List (List AttemptInfo)) :=
  (runIndividual g fuel number rep minRepeatMs s).map RunRes.infoss

/-- The `run_individual` dispatcher branch (GetFunction, lines 181-190):
CHECK_GT(number, 0), CHECK_GT(repeat, 0), CHECK_GE(min_repeat_ms, 0)
before calling RunIndividual.  Result: (outcome, event trace); a failed
CHECK aborts with an empty trace — nothing has run yet. -/
def runIndividualPacked (g : Graph) (fuel : Nat) (number rep minRepeatMs : Int)
    (s : State) : Except String (Option RunRes) × List Event :=
  if ¬ 0 < number then (Except.error "Check failed: number > 0", [])
  else if ¬ 0 < rep then (Except.error "Check failed: repeat > 0", [])
  else if ¬ 0 ≤ minRepeatMs then (Except.error "Check failed: min_repeat_ms >= 0", [])
  else
    match runIndividual g fuel number rep minRepeatMs s with
    | none => (Except.ok none, [])
    | some r => (Except.ok (some r), r.events)

/-- One topological step: apply closure `j` to the storage if the slot is
non-empty (the effect DebugGetNodeOutput's partial run has at slot `j`). -/
def stepEntries (g : Graph) (j : Nat) (es : List Tensor) : List Tensor :=
  match g.opExec j with
  | some f => f es
  | none => es

/-- The spec's idempotence invariant at a storage table: re-running any
closure on it reproduces the same bytes.  The post-forward-pass state of
a well-formed graph satisfies this. -/
def StableAt (g : Graph) (es : List Tensor) : Prop :=
  ∀ j < g.numNodes, stepEntries g j es = es

instance (g : Graph) (es : List Tensor) : Decidable (StableAt g es) :=
  Nat.decidableBallLT g.numNodes fun j _ => stepEntries g j es = es

/-- Concrete graph: a single empty (closure-less) node staged on device
`(1, 0)` whose synchronization takes 5 ms. -/
def gEmpty : Graph :=
  { nodes := [⟨"in", none⟩]
    entries0 := [⟨1, 0, [0]⟩]
    entryId := fun i _ => i
    opCost := fun _ => 0
    syncCost := fun _ _ => 5 / 1000 }

/-- Concrete graph whose `entry_id` is not the identity on first outputs
(`entry_id(i, 0) = 2 i`, as happens downstream of a multi-output node):
node 1 writes storage entry 1, while `entry_id(1, 0)` is entry 2. -/
def gTwo : Graph :=
  { nodes := [⟨"in", none⟩, ⟨"mid", some fun es => es.set 1 ⟨0, 0, [7]⟩⟩]
    entries0 := [⟨0, 0, [5]⟩, ⟨0, 0, [0]⟩, ⟨0, 0, [9]⟩]
    entryId := fun i k => 2 * i + k
    opCost := fun _ => 0
    syncCost := fun _ _ => 0 }

/-- Concrete graph with identity-shaped `entry_id(i, 0) = i` (every node
has one output): node 1 computes entry 1. -/
def gStable : Graph :=
  { nodes := [⟨"in", none⟩, ⟨"mid", some fun es => es.set 1 ⟨0, 0, [7]⟩⟩]
    entries0 := [⟨0, 0, [5]⟩, ⟨0, 0, [0]⟩]
    entryId := fun i k => i + k
    opCost := fun _ => 0
    syncCost := fun _ _ => 0 }

/-- Concrete three-node graph `in`/`mid`/`out` (spec scenario 3): `mid`
writes entry 1, `out` writes entry 2. -/
def gThree : Graph :=
  { nodes := [⟨"in", none⟩,
              ⟨"mid", some fun es => es.set 1 ⟨0, 0, [7]⟩⟩,
              ⟨"out", some fun es => es.set 2 ⟨0, 0, [8]⟩⟩]
    entries0 := [⟨0, 0, [5]⟩, ⟨0, 0, [0]⟩, ⟨0, 0, [0]⟩]
    entryId := fun i k => i + k
    opCost := fun _ => 0
    syncCost := fun _ _ => 0 }

/-- Concrete two-node graph of spec scenario 1: node A is empty, node B
bears the only operator; one timed iteration costs 1 ms. -/
def gAB : Graph :=
  { nodes := [⟨"A", none⟩, ⟨"B", some fun es => es.set 1 ⟨0, 0, [1]⟩⟩]
    entries0 := [⟨0, 0, [5]⟩, ⟨0, 0, [0]⟩]
    entryId := fun i _ => i
    opCost := fun _ => 1 / 1000
    syncCost := fun _ _ => 0 }

/-- Concrete one-node benchmark graph: a single operator costing exactly
1 ms per timed iteration. -/
def gBench : Graph :=
  { nodes := [⟨"op", some fun es => es⟩]
    entries0 := [⟨0, 0, [5]⟩]
    entryId := fun i _ => i
    opCost := fun _ => 1 / 1000
    syncCost := fun _ _ => 0 }

/-- Occurrence count of an event in a trace. -/
def countE (e : Event) : List Event → Nat
  | [] => 0
  | x :: xs => (if x = e then 1 else 0) + countE e xs

/-- Occurrence count of an index in an index list. -/
def countN (i : Nat) : List Nat → Nat
  | [] => 0
  | x :: xs => (if x = i then 1 else 0) + countN i xs

/-- The iteration count the do-while loop uses after observing attempt
`a`: adjusted by `adjustNumber` when the observed duration was positive
(the `if (duration_ms > 0.0)` guard of line 64), unchanged otherwise. -/
def nextNumber (minRepeatMs : ℚ) (a : AttemptInfo) : Int :=
  if 0 < a.durationMs then adjustNumber minRepeatMs a.durationMs a.number else a.number

/-- The trace of the plain execution loop is exactly the invocation of
each listed index whose closure is non-empty, in list order. -/
lemma runSeq_events (g : Graph) :
    ∀ (l : List Nat) (s : State),
      (runSeq g l s).2 = (l.filter fun j => (g.opExec j).isSome).map Event.invoke := by
  intro l
  induction l with
  | nil => intro s; rfl
  | cons i rest ih =>
    intro s
    cases h : g.opExec i with
    | none => simp [runSeq, h, ih]
    | some f => simp [runSeq, h, ih]

/-- The plain execution loop leaves a stable storage table unchanged. -/
lemma runSeq_entries_stable (g : Graph) :
    ∀ (l : List Nat) (es : List Tensor) (t : ℚ),
      (∀ j ∈ l, stepEntries g j es = es) →
      (runSeq g l ⟨es, t⟩).1.entries = es := by
  intro l
  induction l with
  | nil => intro es t _; rfl
  | cons i rest ih =>
    intro es t h
    have hi := h i (List.mem_cons_self i rest)
    have hrest : ∀ j ∈ rest, stepEntries g j es = es :=
      fun j hj => h j (List.mem_cons_of_mem i hj)
    cases hop : g.opExec i with
    | none => simpa [runSeq, hop] using ih es t hrest
    | some f =>
      have hfe : f es = es := by simpa [stepEntries, hop] using hi
      simpa [runSeq, hop, hfe] using ih es (t + g.opCost i) hrest

/-- C6.  For every node index `i` in `[0, N)`, `debug_get_output(i, dst)`
invokes exactly the non-empty closures with indices `0..i` inclusive, in
ascending order (the trace is the invocation list of the non-empty
indices of `0..i`), and never invokes any closure with index greater than
`i`. -/
theorem c6_partial_run_exact (g : Graph) (i : Nat) (s : State)
    (hi : i < g.numNodes) :
    (debugGetNodeOutput g i s).2.2 =
      ((List.range (i + 1)).filter fun j => (g.opExec j).isSome).map Event.invoke
    ∧ ∀ j, Event.invoke j ∈ (debugGetNodeOutput g i s).2.2 → j ≤ i := by
  have hev : (debugGetNodeOutput g i s).2.2 =
      ((List.range (i + 1)).filter fun j => (g.opExec j).isSome).map Event.invoke := by
    unfold debugGetNodeOutput
    rw [if_pos hi]
    dsimp only
    split <;> simpa using runSeq_events g (List.range (i + 1)) s
  refine ⟨hev, ?_⟩
  intro j hj
  rw [hev] at hj
  rcases List.mem_map.mp hj with ⟨j', hj', hinv⟩
  rcases List.mem_filter.mp hj' with ⟨hrange, _⟩
  have hlt : j' < i + 1 := List.mem_range.mp hrange
  injection hinv with h
  omega

/-- C6 witness: on the three-node graph `in`/`mid`/`out`,
`debug_get_output` at index 1 (`mid`) invokes exactly closure 1 (`in` is
empty) and nothing beyond index 1. -/
theorem c6_witness :
    (debugGetNodeOutput gThree 1 gThree.initState).2.2 =
      ((List.range 2).filter fun j => (gThree.opExec j).isSome).map Event.invoke
    ∧ ∀ j, Event.invoke j ∈ (debugGetNodeOutput gThree 1 gThree.initState).2.2 → j ≤ 1 :=
  c6_partial_run_exact gThree 1 gThree.initState (by decide)

/-- The scan errors out (naming the symbol) when no remaining node
matches. -/
lemma getNodeIndexAux_error (nm : String) :
    ∀ (l : List Node) (k : Nat), (∀ nd ∈ l, nd.name ≠ nm) →
      getNodeIndexAux nm k l = Except.error ("cannot find " ++ nm ++ " among nodex") := by
  intro l
  induction l with
  | nil => intro k _; rfl
  | cons nd rest ih =>
    intro k h
    have hnd : nd.name ≠ nm := h nd (List.mem_cons_self nd rest)
    have := ih (k + 1) fun x hx => h x (List.mem_cons_of_mem nd hx)
    simp [getNodeIndexAux, hnd, this]

/-- A successful scan finds a match at the returned (absolute) position
and nothing earlier in the scanned suffix matches. -/
lemma getNodeIndexAux_ok_spec (nm : String) :
    ∀ (l : List Node) (k j : Nat), getNodeIndexAux nm k l = Except.ok j →
      k ≤ j ∧ (∃ nd, l.get? (j - k) = some nd ∧ nd.name = nm) ∧
        ∀ d nd', d < j - k → l.get? d = some nd' → nd'.name ≠ nm := by
  intro l
  induction l with
  | nil => intro k j h; exact absurd h (by simp [getNodeIndexAux])
  | cons nd rest ih =>
    intro k j h
    by_cases hnd : nd.name = nm
    · have hj : k = j := by
        have : Except.ok (ε := String) k = Except.ok j := by
          simpa [getNodeIndexAux, hnd] using h
        exact Except.ok.inj this
      subst hj
      exact ⟨le_rfl, ⟨nd, by simp, hnd⟩, fun d nd' hd => by omega⟩
    · have h' : getNodeIndexAux nm (k + 1) rest = Except.ok j := by
        simpa [getNodeIndexAux, hnd] using h
      obtain ⟨hk, ⟨nd0, hget, hname⟩, hmin⟩ := ih (k + 1) j h'
      refine ⟨by omega, ⟨nd0, ?_, hname⟩, ?_⟩
      · have : j - k = (j - (k + 1)) + 1 := by omega
        simpa [this] using hget
      · intro d nd' hd hget'
        match d, hget' with
        | 0, hget' =>
          have : nd' = nd := by simpa using hget'.symm
          simpa [this] using hnd
        | d' + 1, hget' =>
          have hd' : d' < j - (k + 1) := by omega
          exact hmin d' nd' hd' (by simpa using hget')

/-- If some scanned node matches, the scan succeeds, no later than that
match. -/
lemma getNodeIndexAux_ok_of_mem (nm : String) :
    ∀ (l : List Node) (k i : Nat) (nd : Node), l.get? i = some nd → nd.name = nm →
      ∃ j, getNodeIndexAux nm k l = Except.ok j ∧ j ≤ k + i := by
  intro l
  induction l with
  | nil => intro k i nd h; exact absurd h (by simp)
  | cons nd0 rest ih =>
    intro k i nd hget hname
    by_cases h0 : nd0.name = nm
    · exact ⟨k, by simp [getNodeIndexAux, h0], by omega⟩
    · match i, hget with
      | 0, hget =>
        have : nd0 = nd := by simpa using hget
        exact absurd (this ▸ hname) h0
      | i' + 1, hget =>
        obtain ⟨j, hj, hle⟩ := ih (k + 1) i' nd (by simpa using hget) hname
        exact ⟨j, by simpa [getNodeIndexAux, h0] using hj, by omega⟩

/-- C7.  The node-index lookup returns the smallest index whose node name
equals the query (in particular `lookup(node_name(i)) = i` when `i`'s
name is unique), and when no node matches it fails fatally with a message
naming the missing symbol. -/
theorem c7_node_index_lookup (g : Graph) (nm : String) :
    (∀ j, getNodeIndex g nm = Except.ok j →
        (∃ nd, g.nodes.get? j = some nd ∧ nd.name = nm) ∧
        ∀ j' nd', j' < j → g.nodes.get? j' = some nd' → nd'.name ≠ nm)
  ∧ (∀ i nd, g.nodes.get? i = some nd → nd.name = nm →
        ∃ j, getNodeIndex g nm = Except.ok j ∧ j ≤ i)
  ∧ (∀ i nd, g.nodes.get? i = some nd → nd.name = nm →
        (∀ j' nd', j' ≠ i → g.nodes.get? j' = some nd' → nd'.name ≠ nm) →
        getNodeIndex g nm = Except.ok i)
  ∧ ((∀ nd ∈ g.nodes, nd.name ≠ nm) →
        getNodeIndex g nm = Except.error ("cannot find " ++ nm ++ " among nodex")) := by
  refine ⟨?_, ?_, ?_, ?_⟩
  · intro j h
    obtain ⟨_, ⟨nd, hget, hname⟩, hmin⟩ := getNodeIndexAux_ok_spec nm g.nodes 0 j h
    exact ⟨⟨nd, by simpa using hget, hname⟩,
           fun j' nd' hlt hget' => hmin j' nd' (by omega) (by simpa using hget')⟩
  · intro i nd hget hname
    obtain ⟨j, hj, hle⟩ := getNodeIndexAux_ok_of_mem nm g.nodes 0 i nd hget hname
    exact ⟨j, hj, by omega⟩
  · intro i nd hget hname huniq
    obtain ⟨j, hj, hle⟩ := getNodeIndexAux_ok_of_mem nm g.nodes 0 i nd hget hname
    obtain ⟨_, ⟨ndj, hgetj, hnamej⟩, _⟩ := getNodeIndexAux_ok_spec nm g.nodes 0 j hj
    have hji : j = i := by
      by_contra hne
      exact huniq j ndj hne (by simpa using hgetj) hnamej
    exact hji ▸ hj
  · exact getNodeIndexAux_error nm g.nodes 0

/-- C7 witness: on the `in`/`mid`/`out` graph the lookup of `"mid"`
(which returns index 1) indeed points at a node named `"mid"` with no
earlier match, and the lookup of `"zzz"` aborts fatally naming the
symbol. -/
theorem c7_witness :
    ((∃ nd, gThree.nodes.get? 1 = some nd ∧ nd.name = "mid")
      ∧ ∀ j' nd', j' < 1 → gThree.nodes.get? j' = some nd' → nd'.name ≠ "mid")
    ∧ getNodeIndex gThree "zzz" = Except.error ("cannot find " ++ "zzz" ++ " among nodex") :=
  ⟨(c7_node_index_lookup gThree "mid").1 1 rfl,
   (c7_node_index_lookup gThree "zzz").2.2.2 (by decide)⟩

/-- C10.  `get_output_by_layer` performs no bounds validation: on a
three-node graph, index 99 reaches the out-of-range branch of the total
embedding (the lookup returns `none`), while `debug_run` and
`debug_get_output` at the same index abort on their fatal
`index < op_execs_.size()` check without running anything. -/
theorem c10_get_output_by_layer_unchecked :
    getOutputByLayer gThree gThree.initState 99 0 = none
    ∧ (debugRun gThree 99 gThree.initState).1 =
        Except.error "Check failed: index < op_execs_.size()"
    ∧ (debugGetNodeOutput gThree 99 gThree.initState).1 =
        Except.error "Check failed: index < op_execs_.size()" :=
  ⟨rfl, rfl, rfl⟩

/-- C8.  The `run_individual` dispatcher branch validates `number > 0`,
`repeat > 0` and `min_repeat_ms ≥ 0` first: any violation aborts fatally
with an empty event trace, so no operator closure (warm-up included) has
been invoked. -/
theorem c8_run_individual_validation (g : Graph) (fuel : Nat)
    (number rep minRepeatMs : Int) (s : State)
    (h : ¬ (0 < number ∧ 0 < rep ∧ 0 ≤ minRepeatMs)) :
    ∃ msg, runIndividualPacked g fuel number rep minRepeatMs s =
      (Except.error msg, []) := by
  unfold runIndividualPacked
  by_cases h1 : 0 < number
  · by_cases h2 : 0 < rep
    · have h3 : ¬ 0 ≤ minRepeatMs := by tauto
      exact ⟨"Check failed: min_repeat_ms >= 0", by simp [h1, h2, h3]⟩
    · exact ⟨"Check failed: repeat > 0", by simp [h1, h2]⟩
  · exact ⟨"Check failed: number > 0", by simp [h1]⟩

/-- C8 witness: `run_individual(0, 1, 0)` fails the precondition check
with no closure called (empty trace). -/
theorem c8_witness :
    ∃ msg, runIndividualPacked gThree 5 0 1 0 gThree.initState =
      (Except.error msg, []) :=
  c8_run_individual_validation gThree 5 0 1 0 gThree.initState (by decide)

/-- C2 (amended).  For an in-range index whose closure is empty,
`debug_run` skips the invocation but still reads the clock twice and
synchronizes the device of `data_entry_[entry_id(index, 0)]`; it returns
the elapsed time of that bracket, i.e. the cost of the sync call (zero
only when that sync is free). -/
theorem c2_amended_empty_closure (g : Graph) (i : Nat) (s : State)
    (hi : i < g.numNodes) (hempty : g.opExec i = none) :
    debugRun g i s =
      (Except.ok (g.syncCost (ctxAt g s.entries i).1 (ctxAt g s.entries i).2),
       ⟨s.entries, s.time + g.syncCost (ctxAt g s.entries i).1 (ctxAt g s.entries i).2⟩,
       [Event.clockRead, Event.sync (ctxAt g s.entries i).1 (ctxAt g s.entries i).2,
        Event.clockRead]) := by
  unfold debugRun
  rw [if_pos hi]
  simp [hempty]

/-- C2 witness: the amended statement instantiated on the one-node graph
with an empty closure on device `(1, 0)`. -/
theorem c2_witness :
    debugRun gEmpty 0 gEmpty.initState =
      (Except.ok (gEmpty.syncCost (ctxAt gEmpty gEmpty.initState.entries 0).1
                    (ctxAt gEmpty gEmpty.initState.entries 0).2),
       ⟨gEmpty.initState.entries,
        gEmpty.initState.time +
          gEmpty.syncCost (ctxAt gEmpty gEmpty.initState.entries 0).1
            (ctxAt gEmpty gEmpty.initState.entries 0).2⟩,
       [Event.clockRead,
        Event.sync (ctxAt gEmpty gEmpty.initState.entries 0).1
          (ctxAt gEmpty gEmpty.initState.entries 0).2,
        Event.clockRead]) :=
  c2_amended_empty_closure gEmpty 0 gEmpty.initState (by decide) rfl

/-- C2 counterexample: on the empty-closure node of `gEmpty` (device
`(1, 0)`, sync cost 5 ms) `debug_run(0)` returns 5/1000 ≠ 0 and its trace
contains clock reads — refuting "returns exactly 0 without reading the
clock". -/
theorem c2_counterexample :
    (debugRun gEmpty 0 gEmpty.initState).1 = Except.ok (5 / 1000 : ℚ)
    ∧ (5 / 1000 : ℚ) ≠ 0
    ∧ Event.clockRead ∈ (debugRun gEmpty 0 gEmpty.initState).2.2 :=
  ⟨by simp [debugRun, gEmpty, ctxAt, Graph.opExec, Graph.numNodes, Graph.initState],
   by norm_num, by decide⟩

/-- C1 (amended).  Immediately after a full forward pass whose resulting
storage is stable under re-running closures, `debug_get_output(i, dst)`
fills `dst` with the bytes of storage entry `i` — which is the tensor
`get_output_by_layer(i, 0)` returns exactly when `entry_id(i, 0) = i`
(the source copies `data_entry_[index]` with `eid = index`, not
`data_entry_[entry_id(index, 0)]`). -/
theorem c1_amended_output_extraction (g : Graph) (i : Nat) (t : Tensor)
    (hi : i < g.numNodes)
    (hstable : StableAt g (warmUpRun g g.initState).1.entries)
    (hid : g.entryId i 0 = i)
    (ht : (warmUpRun g g.initState).1.entries.get? i = some t) :
    (debugGetNodeOutput g i (warmUpRun g g.initState).1).1 = Except.ok t.bytes
    ∧ getOutputByLayer g (warmUpRun g g.initState).1 i 0 = some t := by
  set S := (warmUpRun g g.initState).1 with hS
  have hstableList : ∀ j ∈ List.range (i + 1), stepEntries g j S.entries = S.entries := by
    intro j hj
    exact hstable j (lt_of_lt_of_le (List.mem_range.mp hj) hi)
  have hrun : (runSeq g (List.range (i + 1)) S).1.entries = S.entries := by
    have := runSeq_entries_stable g (List.range (i + 1)) S.entries S.time hstableList
    simpa using this
  constructor
  · unfold debugGetNodeOutput
    rw [if_pos hi]
    dsimp only
    rw [hrun, ht]
  · unfold getOutputByLayer
    rw [hid, ht]

/-- C1 witness: the amended statement instantiated on `gStable`
(single-output nodes, `entry_id(i, 0) = i`): after the forward pass both
extraction paths yield the tensor `⟨0, 0, [7]⟩` computed by node 1. -/
theorem c1_witness :
    (debugGetNodeOutput gStable 1 (warmUpRun gStable gStable.initState).1).1 =
      Except.ok (Tensor.mk 0 0 [7]).bytes
    ∧ getOutputByLayer gStable (warmUpRun gStable gStable.initState).1 1 0 =
        some (Tensor.mk 0 0 [7]) :=
  c1_amended_output_extraction gStable 1 ⟨0, 0, [7]⟩ (by decide) (by decide) rfl rfl

/-- C1 counterexample: on `gTwo`, whose `entry_id(1, 0)` is storage entry
2 while `debug_get_output` copies raw entry 1, the copied bytes `[7]`
differ from the `[9]` that `get_output_by_layer(1, 0)` returns
immediately after a full forward pass. -/
theorem c1_counterexample :
    (debugGetNodeOutput gTwo 1 (warmUpRun gTwo gTwo.initState).1).1 =
      Except.ok [7]
    ∧ getOutputByLayer gTwo (warmUpRun gTwo gTwo.initState).1 1 0 =
        some ⟨0, 0, [9]⟩
    ∧ ([7] : List Nat) ≠ [9] :=
  ⟨rfl, rfl, by decide⟩

lemma countE_append (e : Event) :
    ∀ l1 l2 : List Event, countE e (l1 ++ l2) = countE e l1 + countE e l2 := by
  intro l1 l2
  induction l1 with
  | nil => simp [countE]
  | cons x xs ih => simp [countE, ih]; omega

lemma countN_append (i : Nat) :
    ∀ l1 l2 : List Nat, countN i (l1 ++ l2) = countN i l1 + countN i l2 := by
  intro l1 l2
  induction l1 with
  | nil => simp [countN]
  | cons x xs ih => simp [countN, ih]; omega

lemma countN_range (i : Nat) : ∀ n, countN i (List.range n) = if i < n then 1 else 0 := by
  intro n
  induction n with
  | zero => simp [countN]
  | succ n ih =>
    rw [List.range_succ, countN_append, ih]
    by_cases h1 : i < n
    · simp [h1, countN, show ¬ n = i by omega, show i < n + 1 by omega]
    · by_cases h2 : i = n
      · subst h2; simp [h1, countN]
      · simp [h1, countN, show ¬ n = i by omega, show ¬ i < n + 1 by omega]

lemma countE_map_invoke (i : Nat) :
    ∀ l : List Nat, countE (Event.invoke i) (l.map Event.invoke) = countN i l := by
  intro l
  induction l with
  | nil => rfl
  | cons j xs ih => simp [countE, countN, ih]

lemma countN_filter (i : Nat) (p : Nat → Bool) :
    ∀ l : List Nat, countN i (l.filter p) = if p i then countN i l else 0 := by
  intro l
  induction l with
  | nil => simp [countN]
  | cons j xs ih =>
    by_cases hji : j = i
    · subst hji
      cases hp : p j <;> simp [List.filter_cons, hp, countN, ih]
    · cases hp : p j <;> simp [List.filter_cons, hp, countN, hji, ih]

/-- Each non-empty listed closure is invoked once per pass of the warm-up
style loop. -/
lemma countE_warmUp (g : Graph) (i : Nat) (s : State) :
    countE (Event.invoke i) (warmUpRun g s).2 =
      if (g.opExec i).isSome then (if i < g.numNodes then 1 else 0) else 0 := by
  unfold warmUpRun
  rw [runSeq_events, countE_map_invoke, countN_filter, countN_range]

/-- Invocation count of the timed per-op loop over an index list. -/
lemma countE_runOpsTimed (g : Graph) (i : Nat) :
    ∀ (l : List Nat) (s : State) (tpo : List ℚ),
      countE (Event.invoke i) (runOpsTimed g l s tpo).events =
        if (g.opExec i).isSome then countN i l else 0 := by
  intro l
  induction l with
  | nil => intro s tpo; simp [runOpsTimed, countE, countN]
  | cons j rest ih =>
    intro s tpo
    by_cases hji : j = i
    · subst hji
      cases hop : g.opExec j with
      | none => simp [runOpsTimed, hop, ih, countN, hop]
      | some f => simp [runOpsTimed, hop, countE, countN, ih, hop]
    · cases hop : g.opExec j with
      | none => simp [runOpsTimed, hop, ih, countN, hji]
      | some f => simp [runOpsTimed, hop, countE, countN, ih, hji]

/-- Invocation count of `k` passes of the timed loop. -/
lemma countE_runNTimes (g : Graph) (i : Nat) :
    ∀ (k : Nat) (s : State) (tpo : List ℚ),
      countE (Event.invoke i) (runNTimes g k s tpo).events =
        k * (if (g.opExec i).isSome then countN i (List.range g.numNodes) else 0) := by
  intro k
  induction k with
  | zero => intro s tpo; simp [runNTimes, countE]
  | succ k ih =>
    intro s tpo
    simp only [runNTimes, countE_append, countE_runOpsTimed, ih]
    by_cases hsome : (g.opExec i).isSome <;> simp [hsome] <;> ring

/-- Invocation count of one attempt: `number` (clamped at zero) passes. -/
lemma countE_attempt (g : Graph) (i : Nat) (n : Int) (s : State) (tpo : List ℚ) :
    countE (Event.invoke i) (attempt g n s tpo).events =
      n.toNat * (if (g.opExec i).isSome then countN i (List.range g.numNodes) else 0) := by
  simp [attempt, countE, countE_append, countE_runNTimes]

/-- The timed per-op loop never moves the clock backwards. -/
lemma time_mono_runOpsTimed (g : Graph) (hg : g.NonnegCosts) :
    ∀ (l : List Nat) (s : State) (tpo : List ℚ),
      s.time ≤ (runOpsTimed g l s tpo).state.time := by
  intro l
  induction l with
  | nil => intro s tpo; exact le_rfl
  | cons j rest ih =>
    intro s tpo
    cases hop : g.opExec j with
    | none => simpa [runOpsTimed, hop] using ih s tpo
    | some f =>
      simp only [runOpsTimed, hop]
      refine le_trans ?_ (ih _ _)
      have h1 := hg.1 j
      have h2 := hg.2 (ctxAt g s.entries j).1 (ctxAt g s.entries j).2
      dsimp only
      linarith

/-- `k` timed passes never move the clock backwards. -/
lemma time_mono_runNTimes (g : Graph) (hg : g.NonnegCosts) :
    ∀ (k : Nat) (s : State) (tpo : List ℚ),
      s.time ≤ (runNTimes g k s tpo).state.time := by
  intro k
  induction k with
  | zero => intro s tpo; exact le_rfl
  | succ k ih =>
    intro s tpo
    exact le_trans (time_mono_runOpsTimed g hg _ s tpo) (ih _ _)

/-- With a monotonic clock every attempt measures a nonnegative
duration. -/
lemma attempt_dur_nonneg (g : Graph) (hg : g.NonnegCosts) (n : Int) (s : State)
    (tpo : List ℚ) : 0 ≤ (attempt g n s tpo).durationMs := by
  unfold attempt
  dsimp only
  have := time_mono_runNTimes g hg n.toNat s (tpo.map fun _ => (0 : ℚ))
  have hsub : (0 : ℚ) ≤ (runNTimes g n.toNat s (tpo.map fun _ => (0 : ℚ))).state.time - s.time := by
    linarith
  nlinarith

/-- With `min_repeat_ms = 0` the do-while loop exits after its first
attempt, using the incoming `number` unadjusted. -/
lemma doWhile_min0 (g : Graph) (hg : g.NonnegCosts) (fuel : Nat) (n : Int)
    (s : State) (tpo : List ℚ) :
    doWhile g 0 (fuel + 1) n 0 s tpo =
      some ⟨n, (attempt g n s tpo).state, (attempt g n s tpo).accum,
            (attempt g n s tpo).events, [⟨n, (attempt g n s tpo).durationMs⟩]⟩ := by
  have hd := attempt_dur_nonneg g hg n s tpo
  simp [doWhile, not_lt.mpr hd]

/-- With `min_repeat_ms = 0` the repeat loop performs exactly one attempt
of `number` passes per repeat, keeping `number` unchanged. -/
lemma repeatLoop_min0 (g : Graph) (hg : g.NonnegCosts) (fuel : Nat) :
    ∀ (k : Nat) (n : Int) (s : State) (tpo : List ℚ),
      ∃ r, repeatLoop g (fuel + 1) 0 k n s tpo = some r
        ∧ r.number = n
        ∧ r.infoss.length = k
        ∧ (∀ l ∈ r.infoss, ∃ d, l = [⟨n, d⟩])
        ∧ ∀ i, countE (Event.invoke i) r.events =
            k * (n.toNat *
              (if (g.opExec i).isSome then countN i (List.range g.numNodes) else 0)) := by
  intro k
  induction k with
  | zero =>
    intro n s tpo
    exact ⟨⟨n, s, tpo, [], [], []⟩, rfl, rfl, rfl, by simp, fun i => by simp [countE]⟩
  | succ k ih =>
    intro n s tpo
    obtain ⟨r2, hr2, hnum, hlen, hsh, hcount⟩ :=
      ih n (attempt g n s tpo).state (dividedAccum g (attempt g n s tpo).accum n)
    refine ⟨⟨r2.number, r2.state, r2.accum, (attempt g n s tpo).events ++ r2.events,
            [⟨n, (attempt g n s tpo).durationMs⟩] :: r2.infoss,
            mkReport g (attempt g n s tpo).accum n :: r2.reports⟩, ?_, hnum, ?_, ?_, ?_⟩
    · simp only [repeatLoop, doWhile_min0 g hg fuel n s tpo]
      rw [hr2]
    · simpa using hlen
    · intro l hl
      rcases List.mem_cons.mp hl with h | h
      · exact ⟨(attempt g n s tpo).durationMs, h⟩
      · exact hsh l h
    · intro i
      simp only [countE_append, countE_attempt, hcount i]
      ring

/-- C5.  With `min_repeat_ms = 0` and positive `number`/`repeat`,
`run_individual` performs per repeat exactly one attempt of exactly
`number` timed iterations, and each non-empty closure is invoked exactly
`1 + number × repeat` times in total (one warm-up plus the timed
iterations). -/
theorem c5_invocation_counts (g : Graph) (fuel : Nat) (n r : Int) (s : State)
    (hg : g.NonnegCosts) (hfuel : 0 < fuel) (hn : 0 < n) (hr : 0 < r) :
    ∃ res, runIndividual g fuel n r 0 s = some res
      ∧ (∀ i, i < g.numNodes → (g.opExec i).isSome →
          countE (Event.invoke i) res.events = 1 + n.toNat * r.toNat)
      ∧ res.infoss.length = r.toNat
      ∧ ∀ l ∈ res.infoss, ∃ d, l = [⟨n, d⟩] := by
  obtain ⟨fuel', rfl⟩ : ∃ f, fuel = f + 1 := ⟨fuel - 1, by omega⟩
  obtain ⟨r2, hr2, hnum, hlen, hsh, hcount⟩ :=
    repeatLoop_min0 g hg fuel' r.toNat n (warmUpRun g s).1
      (List.replicate g.numNodes (0 : ℚ))
  refine ⟨⟨r2.state, (warmUpRun g s).2 ++ r2.events, r2.infoss, r2.reports⟩, ?_, ?_, hlen, hsh⟩
  · unfold runIndividual
    dsimp only
    rw [show ((0 : Int) : ℚ) = 0 by norm_num, hr2]
  · intro i hi hsome
    simp only [countE_append, countE_warmUp, hcount i, hsome, hi, if_true,
      countN_range, mul_one]
    ring

/-- The cost model of `gAB` is nonnegative. -/
lemma gAB_nonneg : gAB.NonnegCosts :=
  ⟨fun _ => by show (0 : ℚ) ≤ 1 / 1000; norm_num,
   fun _ _ => by show (0 : ℚ) ≤ 0; norm_num⟩

/-- C5 witness: spec scenario 1 — on the two-node graph with empty A and
operator B, `run_individual(4, 2, 0)` invokes B exactly
`1 + 4 × 2 = 9` times, in two repeats of a single 4-iteration attempt
each. -/
theorem c5_witness :
    gAB.NonnegCosts ∧ (0 : Nat) < 3 ∧ (0 : Int) < 4 ∧ (0 : Int) < 2 ∧
      (∃ res, runIndividual gAB 3 4 2 0 gAB.initState = some res
        ∧ (∀ i, i < gAB.numNodes → (gAB.opExec i).isSome →
            countE (Event.invoke i) res.events = 1 + (4 : Int).toNat * (2 : Int).toNat)
        ∧ res.infoss.length = (2 : Int).toNat
        ∧ ∀ l ∈ res.infoss, ∃ d, l = [⟨4, d⟩]) :=
  ⟨gAB_nonneg, by decide, by decide, by decide,
   c5_invocation_counts gAB 3 4 2 gAB.initState gAB_nonneg
     (by decide) (by decide) (by decide)⟩

lemma castToInt_mono {q q' : ℚ} (h : q ≤ q') : castToInt q ≤ castToInt q' := by
  unfold castToInt
  by_cases h1 : 0 ≤ q
  · have h2 : 0 ≤ q' := le_trans h1 h
    simpa [h1, h2] using Int.floor_mono h
  · by_cases h2 : 0 ≤ q'
    · have hc : ⌈q⌉ ≤ 0 := Int.ceil_le.mpr (by push_cast; linarith)
      have hf : 0 ≤ ⌊q'⌋ := Int.floor_nonneg.mpr h2
      simp [h1, h2]
      omega
    · simpa [h1, h2] using Int.ceil_mono h

lemma castToInt_intCast (n : Int) : castToInt (n : ℚ) = n := by
  unfold castToInt
  by_cases h : 0 ≤ (n : ℚ)
  · simp [h, Int.floor_intCast]
  · simp [h, Int.ceil_intCast]

/-- The adjusted iteration count never shrinks a nonnegative count (the
`number × 1.618` arm of the max dominates, truncation included). -/
lemma self_le_adjustNumber (m d : ℚ) {n : Int} (hn : 0 ≤ n) :
    n ≤ adjustNumber m d n := by
  have hcast : (0 : ℚ) ≤ (n : ℚ) := by exact_mod_cast hn
  have h1 : (n : ℚ) ≤ (n : ℚ) * (1618 / 1000) := by nlinarith
  calc n = castToInt (n : ℚ) := (castToInt_intCast n).symm
    _ ≤ castToInt ((n : ℚ) * (1618 / 1000)) := castToInt_mono h1
    _ ≤ adjustNumber m d n := castToInt_mono (le_max_right _ _)

/-- The adjusted iteration count is at least the truncation of
`number × 1.618`. -/
lemma phi_le_adjustNumber (m d : ℚ) (n : Int) :
    castToInt ((n : ℚ) * (1618 / 1000)) ≤ adjustNumber m d n :=
  castToInt_mono (le_max_right _ _)

lemma nextNumber_ge (m : ℚ) (a : AttemptInfo) (h : 0 ≤ a.number) :
    a.number ≤ nextNumber m a := by
  unfold nextNumber
  split
  · exact self_le_adjustNumber _ _ h
  · exact le_rfl

/-- Along an exact-successor chain of attempts starting from a
nonnegative count, counts are monotone and all nonnegative. -/
lemma chain_next_nonneg_mono (m : ℚ) :
    ∀ (l : List AttemptInfo) (a0 : AttemptInfo),
      List.Chain' (fun a b => b.number = nextNumber m a) (a0 :: l) →
      0 ≤ a0.number →
      List.Chain' (fun a b => a.number ≤ b.number) (a0 :: l)
      ∧ ∀ a ∈ a0 :: l, 0 ≤ a.number := by
  intro l
  induction l with
  | nil =>
    intro a0 _ h0
    exact ⟨List.chain'_singleton a0, by simpa using h0⟩
  | cons a1 t ih =>
    intro a0 hch h0
    obtain ⟨hr, hch'⟩ := List.chain'_cons.mp hch
    have h01 : a0.number ≤ a1.number := by
      rw [hr]; exact nextNumber_ge m a0 h0
    have h1 : 0 ≤ a1.number := le_trans h0 h01
    obtain ⟨hmono, hnn⟩ := ih a1 hch' h1
    refine ⟨List.chain'_cons.mpr ⟨h01, hmono⟩, ?_⟩
    intro a ha
    rcases List.mem_cons.mp ha with h | h
    · exact h ▸ h0
    · exact hnn a h

/-- Structure of a terminating do-while loop: the attempt list is
non-empty, its first attempt uses the (possibly adjusted) incoming
count, its last attempt's count is the returned count, and consecutive
attempts are linked by the retry update. -/
lemma doWhile_spec (g : Graph) (m : ℚ) :
    ∀ (fuel : Nat) (nIn : Int) (d : ℚ) (s : State) (tpo : List ℚ) (r : LoopRes),
      doWhile g m fuel nIn d s tpo = some r →
      ∃ a0 rest, r.infos = a0 :: rest
        ∧ a0.number = (if 0 < d then adjustNumber m d nIn else nIn)
        ∧ (∃ aL, r.infos.getLast? = some aL ∧ aL.number = r.number)
        ∧ List.Chain' (fun a b => b.number = nextNumber m a) r.infos := by
  intro fuel
  induction fuel with
  | zero => intro nIn d s tpo r h; exact absurd h (by simp [doWhile])
  | succ fuel ih =>
    intro nIn d s tpo r h
    simp only [doWhile] at h
    by_cases hlt :
        (attempt g (if 0 < d then adjustNumber m d nIn else nIn) s tpo).durationMs < m
    · rw [if_pos hlt] at h
      cases hrec : doWhile g m fuel (if 0 < d then adjustNumber m d nIn else nIn)
          (attempt g (if 0 < d then adjustNumber m d nIn else nIn) s tpo).durationMs
          (attempt g (if 0 < d then adjustNumber m d nIn else nIn) s tpo).state
          (attempt g (if 0 < d then adjustNumber m d nIn else nIn) s tpo).accum with
      | none => rw [hrec] at h; exact absurd h (by simp)
      | some r' =>
        rw [hrec] at h
        obtain ⟨a0', rest', hinfos', hhead', ⟨aL, hlast', haL⟩, hchain'⟩ :=
          ih _ _ _ _ _ hrec
        injection h with h'
        subst h'
        refine ⟨⟨if 0 < d then adjustNumber m d nIn else nIn,
                 (attempt g (if 0 < d then adjustNumber m d nIn else nIn) s tpo).durationMs⟩,
                r'.infos, rfl, rfl, ⟨aL, ?_, haL⟩, ?_⟩
        · rw [hinfos', List.getLast?_cons_cons, ← hinfos']
          exact hlast'
        · rw [hinfos']
          refine List.chain'_cons.mpr ⟨?_, hinfos' ▸ hchain'⟩
          rw [hhead']
          simp [nextNumber]
    · rw [if_neg hlt] at h
      injection h with h'
      subst h'
      exact ⟨_, [], rfl, rfl, ⟨_, rfl, rfl⟩, List.chain'_singleton _⟩

/-- Structure of a terminating repeat loop: one attempt list per repeat,
each non-empty, each an exact-successor chain of nonnegative counts; the
first attempt of the first repeat uses the incoming count unadjusted,
and each repeat starts from the count the previous repeat ended with. -/
lemma repeatLoop_spec (g : Graph) (fuel : Nat) (m : ℚ) :
    ∀ (k : Nat) (nIn : Int) (s : State) (tpo : List ℚ) (r : RepRes),
      repeatLoop g fuel m k nIn s tpo = some r → 0 ≤ nIn →
      r.infoss.length = k
      ∧ (∀ l ∈ r.infoss, l ≠ [])
      ∧ (∀ l ∈ r.infoss, List.Chain' (fun a b => b.number = nextNumber m a) l)
      ∧ (∀ l ∈ r.infoss, ∀ a ∈ l, 0 ≤ a.number)
      ∧ (∀ l0 ∈ r.infoss.head?, ∀ a0 ∈ l0.head?, a0.number = nIn)
      ∧ List.Chain'
          (fun l1 l2 => ∀ x ∈ l1.getLast?, ∀ y ∈ l2.head?, x.number = y.number)
          r.infoss
      ∧ 0 ≤ r.number := by
  intro k
  induction k with
  | zero =>
    intro nIn s tpo r h hn
    injection h with h'
    subst h'
    refine ⟨rfl, by simp, by simp, by simp, by simp, List.chain'_nil, hn⟩
  | succ k ih =>
    intro nIn s tpo r h hn
    simp only [repeatLoop] at h
    cases hdw : doWhile g m fuel nIn 0 s tpo with
    | none => rw [hdw] at h; exact absurd h (by simp)
    | some r1 =>
      rw [hdw] at h
      dsimp only at h
      cases hrl : repeatLoop g fuel m k r1.number r1.state
          (dividedAccum g r1.accum r1.number) with
      | none => rw [hrl] at h; exact absurd h (by simp)
      | some r2 =>
        rw [hrl] at h
        dsimp only at h
        injection h with h'
        subst h'
        obtain ⟨a0, rest, hinfos1, hhead1, ⟨aL, hlast1, haL⟩, hchain1⟩ :=
          doWhile_spec g m fuel nIn 0 s tpo r1 hdw
        have ha0 : a0.number = nIn := by simpa using hhead1
        obtain ⟨hmono1, hnn1⟩ :=
          chain_next_nonneg_mono m rest a0 (hinfos1 ▸ hchain1) (ha0 ▸ hn)
        have haLmem : aL ∈ r1.infos := by
          obtain ⟨hne, heq⟩ :=
            List.mem_getLast?_eq_getLast (Option.mem_def.mpr hlast1)
          exact heq ▸ List.getLast_mem hne
        have hr1nn : 0 ≤ r1.number := haL ▸ hnn1 aL (hinfos1 ▸ haLmem)
        obtain ⟨hlen2, hne2, hch2, hnn2, hhd2, hbd2, hr2nn⟩ :=
          ih r1.number r1.state (dividedAccum g r1.accum r1.number) r2 hrl hr1nn
        refine ⟨by simpa using hlen2, ?_, ?_, ?_, ?_, ?_, hr2nn⟩
        · intro l hl
          rcases List.mem_cons.mp hl with hq | hq
          · subst hq; rw [hinfos1]; exact List.cons_ne_nil _ _
          · exact hne2 l hq
        · intro l hl
          rcases List.mem_cons.mp hl with hq | hq
          · exact hq ▸ hchain1
          · exact hch2 l hq
        · intro l hl
          rcases List.mem_cons.mp hl with hq | hq
          · subst hq; intro a ha; exact hnn1 a (hinfos1 ▸ ha)
          · exact hnn2 l hq
        · intro l0 hl0 a1 ha1
          have hl0' : r1.infos = l0 := by simpa using hl0
          subst hl0'
          have ha1' : a0 = a1 := by
            rw [hinfos1] at ha1
            simpa using ha1
          rw [← ha1', ha0]
        · refine List.chain'_cons'.mpr ⟨?_, hbd2⟩
          intro l2 hl2 x hx y hy
          have hx' : x = aL := by
            rw [Option.mem_def, hlast1] at hx
            exact (Option.some.inj hx).symm
          have hy' : y.number = r1.number := hhd2 l2 hl2 y hy
          rw [hx', haL, hy']

/-- Extraction of the repeat-loop structure from a terminating
`run_individual` call, phrased on the observed attempts. -/
lemma runIndividual_attempts_spec (g : Graph) (fuel : Nat)
    (n rep m : Int) (s : State) (infoss : List (List AttemptInfo))
    (h : runIndividualInfos g fuel n rep m s = some infoss) (hn : 0 ≤ n) :
    infoss.length = rep.toNat
    ∧ (∀ l ∈ infoss, l ≠ [])
    ∧ (∀ l ∈ infoss, List.Chain' (fun a b => b.number = nextNumber (m : ℚ) a) l)
    ∧ (∀ l ∈ infoss, ∀ a ∈ l, 0 ≤ a.number)
    ∧ (∀ l0 ∈ infoss.head?, ∀ a0 ∈ l0.head?, a0.number = n)
    ∧ List.Chain'
        (fun l1 l2 => ∀ x ∈ l1.getLast?, ∀ y ∈ l2.head?, x.number = y.number)
        infoss := by
  unfold runIndividualInfos runIndividual at h
  dsimp only at h
  cases hrl : repeatLoop g fuel (m : ℚ) rep.toNat n (warmUpRun g s).1
      (List.replicate g.numNodes 0) with
  | none => rw [hrl] at h; exact absurd h (by simp)
  | some r2 =>
    rw [hrl] at h
    simp only [Option.map_some] at h
    have hinf : r2.infoss = infoss := Option.some.inj h
    obtain ⟨h1, h2, h3, h4, h5, h6, _⟩ :=
      repeatLoop_spec g fuel (m : ℚ) rep.toNat n (warmUpRun g s).1
        (List.replicate g.numNodes 0) r2 hrl hn
    exact hinf ▸ ⟨h1, h2, h3, h4, h5, h6⟩

/-- C3 (amended).  A terminating `run_individual(n, r, m)` with `n > 0`,
`r > 0`, `m ≥ 0` completes exactly `r` repeats; within each repeat,
either the first attempt already met the minimum (the attempt list is a
singleton, making the chain vacuous) or each retry that follows a
positive-duration attempt has a count at least the integer truncation
`static_cast<int>` of `1.618 ×` the previous attempt's count (a retry
following a non-positive-duration attempt keeps the count unchanged —
the adjustment is guarded by `duration_ms > 0`). -/
theorem c3_repeats_and_growth (g : Graph) (fuel : Nat) (n rep m : Int)
    (s : State) (infoss : List (List AttemptInfo))
    (hn : 0 < n) (hr : 0 < rep) (hm : 0 ≤ m)
    (hres : runIndividualInfos g fuel n rep m s = some infoss) :
    infoss.length = rep.toNat
    ∧ ∀ l ∈ infoss,
        List.Chain'
          (fun a b =>
            (0 < a.durationMs →
              castToInt ((a.number : ℚ) * (1618 / 1000)) ≤ b.number)
            ∧ (a.durationMs ≤ 0 → b.number = a.number)) l := by
  obtain ⟨hlen, _, hch, _, _, _⟩ :=
    runIndividual_attempts_spec g fuel n rep m s infoss hres (le_of_lt hn)
  refine ⟨hlen, fun l hl => (hch l hl).imp ?_⟩
  intro a b hab
  constructor
  · intro hd
    rw [hab]
    unfold nextNumber
    rw [if_pos hd]
    exact phi_le_adjustNumber _ _ _
  · intro hd
    rw [hab]
    unfold nextNumber
    rw [if_neg (not_lt.mpr hd)]

set_option maxRecDepth 10000 in
/-- Concrete evaluation of `run_individual(10, 1, 15)` on the
1 ms/iteration graph: one repeat of two attempts — 10 iterations lasting
10 ms (under the 15 ms minimum), then the retry with
`static_cast<int>(max(15/(10/10)+1, 10×1.618)) = ⌊16.18⌋ = 16`
iterations lasting 16 ms. -/
lemma gBench_run :
    runIndividualInfos gBench 4 10 1 15 gBench.initState =
      some [[⟨10, 10⟩, ⟨16, 16⟩]] := by
  norm_num [runIndividualInfos, runIndividual, repeatLoop, doWhile, attempt,
    runNTimes, runOpsTimed, runSeq, warmUpRun, adjustNumber, castToInt,
    nextNumber, ctxAt, dividedAccum, mkReport, gBench, Graph.numNodes,
    Graph.opExec, Graph.initState, List.range_succ]

/-- C3 counterexample: on the 1 ms/iteration graph,
`run_individual(10, 1, 15)` retries with `number_r = 16`, but
`1.618 × 10 = 16.18 > 16`, so the literal "at least φ times the previous
count" fails (the code truncates with `static_cast<int>`). -/
theorem c3_counterexample :
    runIndividualInfos gBench 4 10 1 15 gBench.initState =
      some [[⟨10, 10⟩, ⟨16, 16⟩]]
    ∧ ¬ ((10 : ℚ) * (1618 / 1000) ≤ (16 : ℚ)) :=
  ⟨gBench_run, by norm_num⟩

/-- C3 witness: the amended statement instantiated on the
`run_individual(10, 1, 15)` benchmark run of `gBench` (one repeat, whose
retry grows 10 to 16 = ⌊16.18⌋). -/
theorem c3_witness :
    [[(⟨10, 10⟩ : AttemptInfo), ⟨16, 16⟩]].length = (1 : Int).toNat
    ∧ ∀ l ∈ [[(⟨10, 10⟩ : AttemptInfo), ⟨16, 16⟩]],
        List.Chain'
          (fun a b =>
            (0 < a.durationMs →
              castToInt ((a.number : ℚ) * (1618 / 1000)) ≤ b.number)
            ∧ (a.durationMs ≤ 0 → b.number = a.number)) l :=
  c3_repeats_and_growth gBench 4 10 1 15 gBench.initState
    [[⟨10, 10⟩, ⟨16, 16⟩]] (by decide) (by decide) (by decide) gBench_run

/-- C4 (amended).  Whenever an attempt of a repeat finishes with
`duration_ms < min_repeat_ms` and a retry follows, the retry's count is
`static_cast<int>(max(min_repeat_ms / (duration_ms / number_r) + 1,
number_r × 1.618))` computed from the just-observed positive
`duration_ms` and the previous count — and is left unchanged when the
observed duration was not positive (the `duration_ms > 0` guard); the
per-operator accumulator is zeroed again before every retry (the attempt
ignores whatever the accumulator held). -/
theorem c4_retry_update (g : Graph) (fuel : Nat) (n rep m : Int)
    (s : State) (infoss : List (List AttemptInfo)) (hn : 0 ≤ n)
    (hres : runIndividualInfos g fuel n rep m s = some infoss) :
    (∀ l ∈ infoss,
      List.Chain'
        (fun a b => b.number =
          if 0 < a.durationMs
          then castToInt (max (((m : Int) : ℚ) / (a.durationMs / (a.number : ℚ)) + 1)
                              ((a.number : ℚ) * (1618 / 1000)))
          else a.number) l)
    ∧ ∀ (number : Int) (s' : State) (tpo : List ℚ), tpo.length = g.numNodes →
        attempt g number s' tpo =
          attempt g number s' (List.replicate g.numNodes (0 : ℚ)) := by
  obtain ⟨_, _, hch, _, _, _⟩ :=
    runIndividual_attempts_spec g fuel n rep m s infoss hres hn
  constructor
  · intro l hl
    refine (hch l hl).imp ?_
    intro a b hab
    rw [hab]
    unfold nextNumber adjustNumber
    rfl
  · intro number s' tpo hlen
    unfold attempt
    rw [List.map_const', hlen, List.map_const', List.length_replicate]

/-- C4 counterexample: in the `run_individual(10, 1, 15)` run the retry
count is 16, but the claim's un-truncated formula
`max(15 / (10 / 10) + 1, 10 × 1.618)` evaluates to 16.18 ≠ 16: the code
stores `static_cast<int>` of the max, not the max itself. -/
theorem c4_counterexample :
    runIndividualInfos gBench 4 10 1 15 gBench.initState =
      some [[⟨10, 10⟩, ⟨16, 16⟩]]
    ∧ ((16 : ℚ) ≠ max ((15 : ℚ) / ((10 : ℚ) / (10 : ℚ)) + 1)
                      ((10 : ℚ) * (1618 / 1000))) :=
  ⟨gBench_run, by norm_num⟩

/-- C4 witness: the amended statement instantiated on the
`run_individual(10, 1, 15)` benchmark run of `gBench`. -/
theorem c4_witness :
    (∀ l ∈ [[(⟨10, 10⟩ : AttemptInfo), ⟨16, 16⟩]],
      List.Chain'
        (fun a b => b.number =
          if 0 < a.durationMs
          then castToInt (max (((15 : Int) : ℚ) / (a.durationMs / (a.number : ℚ)) + 1)
                              ((a.number : ℚ) * (1618 / 1000)))
          else a.number) l)
    ∧ ∀ (number : Int) (s' : State) (tpo : List ℚ), tpo.length = gBench.numNodes →
        attempt gBench number s' tpo =
          attempt gBench number s' (List.replicate gBench.numNodes (0 : ℚ)) :=
  c4_retry_update gBench 4 10 1 15 gBench.initState
    [[⟨10, 10⟩, ⟨16, 16⟩]] (by decide) gBench_run

/-- C9.  Within one terminating `run_individual` call started from a
nonnegative count, the iteration count never decreases across attempts
and repeats: the flattened attempt sequence has monotone counts, each
repeat's first attempt reuses exactly the count the previous repeat
ended with, and the very first attempt uses the caller's `number`. -/
theorem c9_number_monotone (g : Graph) (fuel : Nat) (n rep m : Int)
    (s : State) (infoss : List (List AttemptInfo)) (hn : 0 ≤ n)
    (hres : runIndividualInfos g fuel n rep m s = some infoss) :
    List.Chain' (fun a b => a.number ≤ b.number) infoss.flatten
    ∧ List.Chain'
        (fun l1 l2 => ∀ x ∈ l1.getLast?, ∀ y ∈ l2.head?, x.number = y.number)
        infoss
    ∧ ∀ l0 ∈ infoss.head?, ∀ a0 ∈ l0.head?, a0.number = n := by
  obtain ⟨_, hne, hch, hnn, hhd, hbd⟩ :=
    runIndividual_attempts_spec g fuel n rep m s infoss hres hn
  have hnil : [] ∉ infoss := fun hmem => hne [] hmem rfl
  refine ⟨(List.chain'_flatten hnil).mpr ⟨?_, ?_⟩, hbd, hhd⟩
  · intro l hl
    cases l with
    | nil => exact List.chain'_nil
    | cons a0 rest =>
      exact (chain_next_nonneg_mono (m : ℚ) rest a0 (hch _ hl)
        (hnn _ hl a0 (List.mem_cons_self a0 rest))).1
  · exact hbd.imp fun l1 l2 hb x hx y hy => le_of_eq (hb x hx y hy)

/-- C9 witness: on the `run_individual(10, 1, 15)` benchmark run the
attempt counts `10, 16` are non-decreasing and the first attempt uses
the caller's 10. -/
theorem c9_witness :
    List.Chain' (fun a b => a.number ≤ b.number)
      [[(⟨10, 10⟩ : AttemptInfo), ⟨16, 16⟩]].flatten
    ∧ List.Chain'
        (fun l1 l2 => ∀ x ∈ l1.getLast?, ∀ y ∈ l2.head?, x.number = y.number)
        [[(⟨10, 10⟩ : AttemptInfo), ⟨16, 16⟩]]
    ∧ ∀ l0 ∈ [[(⟨10, 10⟩ : AttemptInfo), ⟨16, 16⟩]].head?,
        ∀ a0 ∈ l0.head?, a0.number = 10 :=
  c9_number_monotone gBench 4 10 1 15 gBench.initState
    [[⟨10, 10⟩, ⟨16, 16⟩]] (by decide) gBench_run

end CvmDebug
